import Mathlib

/-!
Shallow embedding of the `symmetric-crypto-es` repository (src/basic.ts,
src/standard.ts, src/enhance.ts) for checking its specification.

Bytes are modelled as `List Nat`.  The cipher primitives, SHA-256 digest,
key import and the secure random source are external collaborators of the
repository (spec §1 excludes them from the core); they are passed in as a
`CryptoProvider` record, and the random tokens produced by
`crypto.getRandomValues` are threaded explicitly as an entropy list.
Mutable instance state of `SymmetricCryptorBasic` is passed explicitly as a
`SymmetricCryptorBasicState` value.  The text codec (`cipherTextCoder`) is
an external collaborator as well and none of the checked claims concerns
it, so options carry only `times`.
-/

namespace SymmetricCrypto

/-- The `SymmetricCryptorAlgorithm` union type of src/basic.ts lines 2-5. -/
inductive SymmetricCryptorAlgorithm : Type where
  | aesCBC
  | aesCTR
  | aesGCM
deriving DecidableEq, Repr

/-- The `algorithms` constant of src/basic.ts lines 6-10, kept as the raw
strings so that an arbitrary (possibly invalid) runtime tag can be
validated against it. -/
def algorithms : List String := ["AES-CBC", "AES-CTR", "AES-GCM"]

/-- Recover the enumerated algorithm from its string tag; `none` exactly on
the strings rejected by `algorithms.includes` in src/basic.ts line 136. -/
def parseAlgorithm : String → Option SymmetricCryptorAlgorithm
  | "AES-CBC" => some .aesCBC
  | "AES-CTR" => some .aesCTR
  | "AES-GCM" => some .aesGCM
  | _ => none

/-- The `#tokenLength` assignment of src/basic.ts lines 79 and 94:
16 for AES-CBC and AES-CTR, 12 for AES-GCM. -/
def tokenLength : SymmetricCryptorAlgorithm → Nat
  | .aesGCM => 12
  | _ => 16

/-- The parameter objects passed to the cipher primitive:
`AesCbcParams`/`AesGcmParams` `{name, iv}` and `AesCtrParams`
`{name, counter, length}` (src/basic.ts lines 80-108). -/
inductive CipherParams : Type where
  | aesIv (name : SymmetricCryptorAlgorithm) (iv : List Nat)
  | aesCounter (name : SymmetricCryptorAlgorithm) (counter : List Nat) (length : Nat)
deriving DecidableEq, Repr

/-- External collaborators (spec §1, §6): the cipher primitive pair
(`crypto.subtle.encrypt`/`decrypt`), the SHA-256 digest, and the key
import, which may fail.  `Key` is the opaque `CryptoKey` handle type. -/
structure CryptoProvider (Key : Type) where
  subtleEncrypt : CipherParams → Key → List Nat → List Nat
  subtleDecrypt : CipherParams → Key → List Nat → List Nat
  digestSha256 : List Nat → List Nat
  importKey : SymmetricCryptorAlgorithm → List Nat → Except String Key

/-- One cipher stage: the `SymmetricCryptoService` class of src/basic.ts
lines 67-145 (its `#algorithmName` string is kept as the parsed enumerated
value; the resolver closures are recovered from the algorithm by
`resolveDecryptParameters`/`resolveEncryptParameters` below, exactly as the
constructor switch assigns them). -/
structure SymmetricCryptoService (Key : Type) where
  algorithmName : SymmetricCryptorAlgorithm
  cryptoKey : Key
deriving DecidableEq, Repr

variable {Key : Type}

/-- The `#resolveDecryptParameters` closure of src/basic.ts lines 80-85 and
95-101: CBC/GCM take `iv = data.slice(0, tokenLength)`, CTR takes
`counter = data.slice(0, tokenLength)` with `length: 64`. -/
def SymmetricCryptoService.resolveDecryptParameters
    (s : SymmetricCryptoService Key) (data : List Nat) : CipherParams :=
  match s.algorithmName with
  | .aesCBC => .aesIv .aesCBC (data.take (tokenLength .aesCBC))
  | .aesGCM => .aesIv .aesGCM (data.take (tokenLength .aesGCM))
  | .aesCTR => .aesCounter .aesCTR (data.take (tokenLength .aesCTR)) 64

/-- The `#resolveEncryptParameters` closure of src/basic.ts lines 86-91 and
102-108: CBC/GCM take `iv = token`, CTR takes `counter = token` with
`length: 64`. -/
def SymmetricCryptoService.resolveEncryptParameters
    (s : SymmetricCryptoService Key) (token : List Nat) : CipherParams :=
  match s.algorithmName with
  | .aesCBC => .aesIv .aesCBC token
  | .aesGCM => .aesIv .aesGCM token
  | .aesCTR => .aesCounter .aesCTR token 64

/-- `SymmetricCryptoService.decrypt` (src/basic.ts lines 114-116):
resolve parameters from the blob and hand `data.slice(tokenLength)`
to the primitive. -/
def SymmetricCryptoService.decrypt (prov : CryptoProvider Key)
    (s : SymmetricCryptoService Key) (data : List Nat) : List Nat :=
  prov.subtleDecrypt (s.resolveDecryptParameters data) s.cryptoKey
    (data.drop (tokenLength s.algorithmName))

/-- `SymmetricCryptoService.encrypt` (src/basic.ts lines 117-120): the
fresh random `token` (supplied here explicitly by the entropy thread) is
prefixed to the primitive's output. -/
def SymmetricCryptoService.encrypt (prov : CryptoProvider Key)
    (s : SymmetricCryptoService Key) (token : List Nat) (data : List Nat) : List Nat :=
  token ++ prov.subtleEncrypt (s.resolveEncryptParameters token) s.cryptoKey data

/-- The runtime error kinds thrown by src/basic.ts, structured with the
data their messages carry. -/
inductive CryptorError : Type where
  /-- `RangeError` of src/basic.ts line 137, naming the offending value and
  the accepted set. -/
  | invalidAlgorithm (value : String) (accepted : List String)
  /-- `ReferenceError` of src/basic.ts line 194 (empty `keys` array). -/
  | missingKeys
  /-- `TypeError` of src/basic.ts line 204 (bad `options.times`). -/
  | invalidTimes (value : ℚ)
  /-- A failure of the external digest/import collaborator, propagated
  as-is (src/basic.ts line 143). -/
  | keyDerivationFailed (message : String)
  /-- The internal `Error` of src/basic.ts line 246. -/
  | cryptoKeysMissing
deriving DecidableEq, Repr

/-- A key argument: either a raw bytes-like key or a
`SymmetricCryptorKeyInput` object `{algorithm?, key}` (src/basic.ts lines
25-35 and 121-142).  The algorithm tag is an arbitrary runtime string,
validated by `create`; key material is its byte view (the UTF-8 encoding
of string keys is an external text-encoder step). -/
inductive KeyArgument : Type where
  | rawKey (key : List Nat)
  | keyInput (algorithm : Option String) (key : List Nat)
deriving DecidableEq, Repr

/-- `SymmetricCryptoService.create` (src/basic.ts lines 121-144): default
the algorithm to AES-CBC, validate an explicit tag against `algorithms`
(rejecting with the `RangeError` of line 137), then digest the key
material and import it.  The whole function is `async` in the source, so
every failure here is a rejected promise, never a synchronous throw. -/
def SymmetricCryptoService.create (prov : CryptoProvider Key)
    (input : KeyArgument) : Except CryptorError (SymmetricCryptoService Key) :=
  let resolved : Except CryptorError (SymmetricCryptorAlgorithm × List Nat) :=
    match input with
    | .rawKey key => .ok (.aesCBC, key)
    | .keyInput a? key =>
      match a? with
      | none => .ok (.aesCBC, key)
      | some a =>
        match parseAlgorithm a with
        | some alg => .ok (alg, key)
        | none => .error (.invalidAlgorithm a algorithms)
  match resolved with
  | .error e => .error e
  | .ok (alg, key) =>
    match prov.importKey alg (prov.digestSha256 key) with
    | .error e => .error (.keyDerivationFailed e)
    | .ok k => .ok ⟨alg, k⟩

/-- `Number.isSafeInteger` on the rational model of a JS number. -/
def numberIsSafeInteger (q : ℚ) : Bool :=
  q.den == 1 && q.num.natAbs ≤ 2 ^ 53 - 1

/-- The recognized construction options (src/basic.ts lines 55-66), minus
the external text codec. `times` is a raw JS number, modelled as ℚ. -/
structure SymmetricCryptorOptions : Type where
  times : Option ℚ
deriving DecidableEq, Repr

/-- The mutable private state of a `SymmetricCryptorBasic` instance
(src/basic.ts lines 171-175).  `keysToCryptoKeysPromise` holds the settled
outcome of the memoized `Promise.all` of key derivations. -/
structure SymmetricCryptorBasicState (Key : Type) where
  keyIsSingle : Bool
  keyOnSingleRepeats : Nat
  keysToCryptoKeysPromise : Option (Except CryptorError (List (SymmetricCryptoService Key)))
  cryptoKeysStorage : Option (List (SymmetricCryptoService Key))
  keysToCryptoKeysFail : Option CryptorError
deriving Repr

/-- `Promise.all` over the per-key derivations: all succeed, or the first
rejection in order wins. -/
def promiseAll : List (Except CryptorError α) → Except CryptorError (List α)
  | [] => .ok []
  | .error e :: _ => .error e
  | .ok a :: rest => (promiseAll rest).map (a :: ·)

/-- The constructor argument: one key, or an ordered array of keys
(src/basic.ts lines 181-188, discriminated by `Array.isArray`). -/
inductive KeysArgument : Type where
  | single (key : KeyArgument)
  | list (keys : List KeyArgument)
deriving DecidableEq, Repr

/-- The `SymmetricCryptorBasic` constructor (src/basic.ts lines 188-210).
An `Except.error` models a synchronous throw; an `Except.ok` state carries
the dispatched (settled) derivation promise.  Note the array branch never
inspects `options.times`. -/
def SymmetricCryptorBasic.construct (prov : CryptoProvider Key)
    (keys : KeysArgument) (options : SymmetricCryptorOptions) :
    Except CryptorError (SymmetricCryptorBasicState Key) :=
  match keys with
  | .list ks =>
    if ks.length = 0 then
      .error .missingKeys
    else
      .ok {
        keyIsSingle := false
        keyOnSingleRepeats := 1
        keysToCryptoKeysPromise := some (promiseAll (ks.map (SymmetricCryptoService.create prov)))
        cryptoKeysStorage := none
        keysToCryptoKeysFail := none
      }
  | .single k =>
    match options.times with
    | none =>
      .ok {
        keyIsSingle := true
        keyOnSingleRepeats := 1
        keysToCryptoKeysPromise := some (promiseAll [SymmetricCryptoService.create prov k])
        cryptoKeysStorage := none
        keysToCryptoKeysFail := none
      }
    | some t =>
      if numberIsSafeInteger t ∧ 1 ≤ t then
        .ok {
          keyIsSingle := true
          keyOnSingleRepeats := t.num.toNat
          keysToCryptoKeysPromise := some (promiseAll [SymmetricCryptoService.create prov k])
          cryptoKeysStorage := none
          keysToCryptoKeysFail := none
        }
      else
        .error (.invalidTimes t)

/-- `SymmetricCryptorBasic.ready` (src/basic.ts lines 219-239): consume the
pending derivation promise once, populate the stage storage (duplicating
the single stage `keyOnSingleRepeats` times) or capture the error, then
re-raise any captured error.  Returns the new state and the thrown error,
if any.  (`result[0]` on an empty result cannot occur from the
constructor; it is modelled as producing an empty storage.) -/
def SymmetricCryptorBasic.ready (st : SymmetricCryptorBasicState Key) :
    SymmetricCryptorBasicState Key × Option CryptorError :=
  let st1 : SymmetricCryptorBasicState Key :=
    match st.keysToCryptoKeysPromise with
    | none => st
    | some settled =>
      match settled with
      | .ok result =>
        { st with
          cryptoKeysStorage := some (if st.keyIsSingle then
              match result with
              | r :: _ => List.replicate st.keyOnSingleRepeats r
              | [] => []
            else result)
          keysToCryptoKeysPromise := none }
      | .error e =>
        { st with
          keysToCryptoKeysFail := some e
          keysToCryptoKeysPromise := none }
  (st1, st1.keysToCryptoKeysFail)

/-- `SymmetricCryptorBasic.#getCryptoKeys` (src/basic.ts lines 240-249). -/
def SymmetricCryptorBasic.getCryptoKeys (st : SymmetricCryptorBasicState Key) :
    SymmetricCryptorBasicState Key × Except CryptorError (List (SymmetricCryptoService Key)) :=
  match SymmetricCryptorBasic.ready st with
  | (st1, some e) => (st1, .error e)
  | (st1, none) =>
    match st1.cryptoKeysStorage with
    | none => (st1, .error .cryptoKeysMissing)
    | some ks =>
      if ks.length = 0 then (st1, .error .cryptoKeysMissing) else (st1, .ok ks)

/-- The decryption loop of src/basic.ts lines 255-259: fold the per-stage
`decrypt` over `cryptoKeys.toReversed()`. -/
def SymmetricCryptorBasic.decryptLoop (prov : CryptoProvider Key)
    (cryptoKeys : List (SymmetricCryptoService Key)) (data : List Nat) : List Nat :=
  cryptoKeys.reverse.foldl (fun bin cryptoKey => cryptoKey.decrypt prov bin) data

/-- The encryption loop of src/basic.ts lines 281-285: fold the per-stage
`encrypt` over `cryptoKeys` in order, consuming one random token per stage
from the entropy thread (the random collaborator always supplies a token,
so the exhausted-entropy branch is unreachable under the length side
condition carried by the theorems). -/
def SymmetricCryptorBasic.encryptLoop (prov : CryptoProvider Key) :
    List (SymmetricCryptoService Key) → List (List Nat) → List Nat → List Nat
  | [], _, bin => bin
  | _ :: _, [], bin => bin
  | cryptoKey :: rest, token :: tokens, bin =>
    SymmetricCryptorBasic.encryptLoop prov rest tokens (cryptoKey.encrypt prov token bin)

/-- `SymmetricCryptorBasic.#decrypt` (src/basic.ts lines 250-260): fetch
the crypto keys (running `ready`), return empty input unchanged, otherwise
run the reverse loop. -/
def SymmetricCryptorBasic.decryptBytes (prov : CryptoProvider Key)
    (st : SymmetricCryptorBasicState Key) (data : List Nat) :
    SymmetricCryptorBasicState Key × Except CryptorError (List Nat) :=
  match SymmetricCryptorBasic.getCryptoKeys st with
  | (st1, .error e) => (st1, .error e)
  | (st1, .ok cryptoKeys) =>
    if data.length = 0 then (st1, .ok data)
    else (st1, .ok (SymmetricCryptorBasic.decryptLoop prov cryptoKeys data))

/-- `SymmetricCryptorBasic.#encrypt` (src/basic.ts lines 279-286): fetch
the crypto keys (running `ready`), then run the forward loop. -/
def SymmetricCryptorBasic.encryptBytes (prov : CryptoProvider Key)
    (st : SymmetricCryptorBasicState Key) (tokens : List (List Nat)) (data : List Nat) :
    SymmetricCryptorBasicState Key × Except CryptorError (List Nat) :=
  match SymmetricCryptorBasic.getCryptoKeys st with
  | (st1, .error e) => (st1, .error e)
  | (st1, .ok cryptoKeys) =>
    (st1, .ok (SymmetricCryptorBasic.encryptLoop prov cryptoKeys tokens data))

/-- Observer: the stage list an instance ends up with after its readiness
step (empty if derivation failed). -/
def stagesOf (st : SymmetricCryptorBasicState Key) : List (SymmetricCryptoService Key) :=
  ((SymmetricCryptorBasic.ready st).1.cryptoKeysStorage).getD []

/-- Observer: the per-stage random-value lengths demanded by a stage list. -/
def tokenLengthsOf (stages : List (SymmetricCryptoService Key)) : List Nat :=
  stages.map (fun s => tokenLength s.algorithmName)

/-- The stage list `ready` stores on a successful derivation (src/basic.ts
lines 223-230): the single stage duplicated `keyOnSingleRepeats` times, or
the derived list itself. -/
def readyStorage (st : SymmetricCryptorBasicState Key)
    (result : List (SymmetricCryptoService Key)) : List (SymmetricCryptoService Key) :=
  if st.keyIsSingle then
    match result with
    | r :: _ => List.replicate st.keyOnSingleRepeats r
    | [] => []
  else result

/-- File-system effects performed by the file-oriented methods of
src/standard.ts and src/enhance.ts (`Deno.readFile`/`Deno.writeFile`). -/
inductive FileEffect : Type where
  | fsRead
  | fsWrite (content : List Nat)
deriving DecidableEq, Repr

/-- Replay a sequence of file effects against a file's content: a write
replaces the content, a read leaves it untouched. -/
def runFileEffects (file : List Nat) : List FileEffect → List Nat
  | [] => file
  | .fsRead :: rest => runFileEffects file rest
  | .fsWrite c :: rest => runFileEffects c rest

/-- `SymmetricCryptor.decryptFileInPlace` (src/standard.ts lines 21-25, and
the inlined equivalent in src/enhance.ts): read the whole file, decrypt,
and only then write; a decrypt failure propagates before any write effect
is emitted. -/
def SymmetricCryptor.decryptFileInPlace (prov : CryptoProvider Key)
    (st : SymmetricCryptorBasicState Key) (file : List Nat) :
    List FileEffect × Except CryptorError Unit :=
  let context := file
  match (SymmetricCryptorBasic.decryptBytes prov st context).2 with
  | .error e => ([.fsRead], .error e)
  | .ok decrypted => ([.fsRead, .fsWrite decrypted], .ok ())

/-- `SymmetricCryptor.encryptFileInPlace` (src/standard.ts lines 38-42, and
the inlined equivalent in src/enhance.ts): read the whole file, encrypt,
and only then write. -/
def SymmetricCryptor.encryptFileInPlace (prov : CryptoProvider Key)
    (st : SymmetricCryptorBasicState Key) (tokens : List (List Nat)) (file : List Nat) :
    List FileEffect × Except CryptorError Unit :=
  let context := file
  match (SymmetricCryptorBasic.encryptBytes prov st tokens context).2 with
  | .error e => ([.fsRead], .error e)
  | .ok encrypted => ([.fsRead, .fsWrite encrypted], .ok ())

/-- `SymmetricCryptor.writeEncryptedFile` (src/standard.ts lines 85-91):
encrypt the given data first, then write it. -/
def SymmetricCryptor.writeEncryptedFile (prov : CryptoProvider Key)
    (st : SymmetricCryptorBasicState Key) (tokens : List (List Nat)) (data : List Nat) :
    List FileEffect × Except CryptorError Unit :=
  match (SymmetricCryptorBasic.encryptBytes prov st tokens data).2 with
  | .error e => ([], .error e)
  | .ok encrypted => ([.fsWrite encrypted], .ok ())

/-- Concrete collaborator used by the witnesses: the identity cipher pair
(a trivially correct primitive), identity digest, and an import that
always yields the handle `0`. -/
def witProvider : CryptoProvider Nat where
  subtleEncrypt := fun _ _ m => m
  subtleDecrypt := fun _ _ m => m
  digestSha256 := fun b => b
  importKey := fun _ _ => .ok 0

/-- Concrete collaborator whose key import always fails, for exercising
the deferred key-derivation error paths. -/
def witFailProvider : CryptoProvider Nat where
  subtleEncrypt := fun _ _ m => m
  subtleDecrypt := fun _ _ m => m
  digestSha256 := fun b => b
  importKey := fun _ _ => .error "import failed"

/-- The instance state produced by constructing with the single raw key
`[1,2,3]` and no options under `witProvider`. -/
def witState : SymmetricCryptorBasicState Nat where
  keyIsSingle := true
  keyOnSingleRepeats := 1
  keysToCryptoKeysPromise := some (.ok [⟨.aesCBC, 0⟩])
  cryptoKeysStorage := none
  keysToCryptoKeysFail := none

/-- The instance state produced by constructing with the key input
`{algorithm: "AES-XTS", key: [1]}` and no options: construction succeeds
and the InvalidAlgorithm rejection sits in the deferred derivation
outcome. -/
def witFailState : SymmetricCryptorBasicState Nat where
  keyIsSingle := true
  keyOnSingleRepeats := 1
  keysToCryptoKeysPromise := some (.error (.invalidAlgorithm "AES-XTS" algorithms))
  cryptoKeysStorage := none
  keysToCryptoKeysFail := none

section Lemmas

theorem tokenLength_pos (a : SymmetricCryptorAlgorithm) : 0 < tokenLength a := by
  cases a <;> decide

theorem resolveDecryptParameters_append (s : SymmetricCryptoService Key)
    (t e : List Nat) (ht : t.length = tokenLength s.algorithmName) :
    s.resolveDecryptParameters (t ++ e) = s.resolveEncryptParameters t := by
  rcases s with ⟨a, k⟩
  cases a <;>
    simp only [SymmetricCryptoService.resolveDecryptParameters,
      SymmetricCryptoService.resolveEncryptParameters] <;>
    rw [List.take_left' ht]

/-- Single-stage round trip: decrypting the token-prefixed blob with the
same stage recovers the plaintext, given that the cipher primitive is an
inverse pair on equal parameters. -/
theorem SymmetricCryptoService.decrypt_encrypt (prov : CryptoProvider Key)
    (hinv : ∀ p k m, prov.subtleDecrypt p k (prov.subtleEncrypt p k m) = m)
    (s : SymmetricCryptoService Key) (t m : List Nat)
    (ht : t.length = tokenLength s.algorithmName) :
    s.decrypt prov (s.encrypt prov t m) = m := by
  unfold SymmetricCryptoService.decrypt SymmetricCryptoService.encrypt
  rw [List.drop_left' ht, resolveDecryptParameters_append s t _ ht, hinv]

theorem decryptLoop_cons (prov : CryptoProvider Key)
    (s : SymmetricCryptoService Key) (rest : List (SymmetricCryptoService Key))
    (d : List Nat) :
    SymmetricCryptorBasic.decryptLoop prov (s :: rest) d =
      s.decrypt prov (SymmetricCryptorBasic.decryptLoop prov rest d) := by
  simp [SymmetricCryptorBasic.decryptLoop, List.foldl_append]

theorem decryptLoop_snoc (prov : CryptoProvider Key)
    (ss : List (SymmetricCryptoService Key)) (s : SymmetricCryptoService Key)
    (d : List Nat) :
    SymmetricCryptorBasic.decryptLoop prov (ss ++ [s]) d =
      SymmetricCryptorBasic.decryptLoop prov ss (s.decrypt prov d) := by
  simp [SymmetricCryptorBasic.decryptLoop, List.reverse_append]

theorem encryptLoop_snoc (prov : CryptoProvider Key)
    (ss : List (SymmetricCryptoService Key)) (s : SymmetricCryptoService Key)
    (ts : List (List Nat)) (t : List Nat) (m : List Nat)
    (hlen : ts.length = ss.length) :
    SymmetricCryptorBasic.encryptLoop prov (ss ++ [s]) (ts ++ [t]) m =
      s.encrypt prov t (SymmetricCryptorBasic.encryptLoop prov ss ts m) := by
  induction ss generalizing ts m with
  | nil =>
    have hts : ts = [] := List.length_eq_zero.mp (by simpa using hlen)
    subst hts
    simp [SymmetricCryptorBasic.encryptLoop]
  | cons s0 rest ih =>
    cases ts with
    | nil => simp at hlen
    | cons t0 ts0 =>
      simp only [List.cons_append, SymmetricCryptorBasic.encryptLoop]
      exact ih ts0 _ (by simpa using hlen)

/-- Chain-level round trip at the loop level: the reverse decryption loop
undoes the forward encryption loop, given matching token lengths and an
inverse cipher primitive. -/
theorem decryptLoop_encryptLoop (prov : CryptoProvider Key)
    (hinv : ∀ p k m, prov.subtleDecrypt p k (prov.subtleEncrypt p k m) = m)
    (stages : List (SymmetricCryptoService Key)) (tokens : List (List Nat))
    (m : List Nat)
    (htok : tokens.map List.length = tokenLengthsOf stages) :
    SymmetricCryptorBasic.decryptLoop prov stages
      (SymmetricCryptorBasic.encryptLoop prov stages tokens m) = m := by
  induction stages generalizing tokens m with
  | nil =>
    cases tokens <;> simp [SymmetricCryptorBasic.decryptLoop,
      SymmetricCryptorBasic.encryptLoop]
  | cons s rest ih =>
    cases tokens with
    | nil => simp [tokenLengthsOf] at htok
    | cons t ts =>
      simp only [tokenLengthsOf, List.map_cons, List.cons.injEq] at htok
      rw [SymmetricCryptorBasic.encryptLoop, decryptLoop_cons,
        ih ts _ htok.2, SymmetricCryptoService.decrypt_encrypt prov hinv s t m htok.1]

/-- The encryption loop can only grow its input when the cipher primitive
never shrinks: the output carries at least every stage's random value plus
the original payload. -/
theorem encryptLoop_length (prov : CryptoProvider Key)
    (hgrow : ∀ p k m, (m : List Nat).length ≤ (prov.subtleEncrypt p k m).length)
    (stages : List (SymmetricCryptoService Key)) (tokens : List (List Nat))
    (m : List Nat)
    (htok : tokens.map List.length = tokenLengthsOf stages) :
    (tokenLengthsOf stages).sum + m.length ≤
      (SymmetricCryptorBasic.encryptLoop prov stages tokens m).length := by
  induction stages generalizing tokens m with
  | nil => simp [tokenLengthsOf, SymmetricCryptorBasic.encryptLoop]
  | cons s rest ih =>
    cases tokens with
    | nil => simp [tokenLengthsOf] at htok
    | cons t ts =>
      simp only [tokenLengthsOf, List.map_cons, List.cons.injEq] at htok
      rw [SymmetricCryptorBasic.encryptLoop]
      have h1 := ih ts (s.encrypt prov t m) htok.2
      have h2 : tokenLength s.algorithmName + m.length ≤ (s.encrypt prov t m).length := by
        simp only [SymmetricCryptoService.encrypt, List.length_append]
        have := hgrow (s.resolveEncryptParameters t) s.cryptoKey m
        omega
      simp only [tokenLengthsOf, List.map_cons, List.sum_cons] at h1 ⊢
      omega

/-- With at least one stage, the encrypted blob is never empty: it ends in
a token-prefixed stage output. -/
theorem encryptLoop_ne_nil (prov : CryptoProvider Key)
    (stages : List (SymmetricCryptoService Key)) (tokens : List (List Nat))
    (m : List Nat) (hne : stages ≠ [])
    (htok : tokens.map List.length = tokenLengthsOf stages) :
    SymmetricCryptorBasic.encryptLoop prov stages tokens m ≠ [] := by
  induction stages generalizing tokens m with
  | nil => exact absurd rfl hne
  | cons s rest ih =>
    cases tokens with
    | nil => simp [tokenLengthsOf] at htok
    | cons t ts =>
      simp only [tokenLengthsOf, List.map_cons, List.cons.injEq] at htok
      rw [SymmetricCryptorBasic.encryptLoop]
      rcases rest with _ | ⟨r, rest0⟩
      · cases ts
        · simp only [SymmetricCryptorBasic.encryptLoop, SymmetricCryptoService.encrypt]
          intro hcontra
          have := congrArg List.length hcontra
          simp only [List.length_append, List.length_nil, htok.1] at this
          exact absurd this.symm (Nat.ne_of_lt (by
            have := tokenLength_pos s.algorithmName
            omega))
        · simp [tokenLengthsOf] at htok
      · exact ih _ _ (by simp) htok.2

theorem ready_snd (st : SymmetricCryptorBasicState Key) :
    (SymmetricCryptorBasic.ready st).2 =
      (SymmetricCryptorBasic.ready st).1.keysToCryptoKeysFail := rfl

theorem ready_fst_promise_none (st : SymmetricCryptorBasicState Key) :
    (SymmetricCryptorBasic.ready st).1.keysToCryptoKeysPromise = none ∨
      (SymmetricCryptorBasic.ready st).1 = st := by
  unfold SymmetricCryptorBasic.ready
  rcases hp : st.keysToCryptoKeysPromise with _ | settled
  · exact Or.inr rfl
  · rcases settled with e | result <;> simp

theorem ready_of_promise_none (st : SymmetricCryptorBasicState Key)
    (h : st.keysToCryptoKeysPromise = none) :
    SymmetricCryptorBasic.ready st = (st, st.keysToCryptoKeysFail) := by
  unfold SymmetricCryptorBasic.ready
  rw [h]

/-- The readiness step is stable: running it a second time changes nothing
and reports the same outcome, so every later call observes the first
call's terminal state. -/
theorem ready_ready (st : SymmetricCryptorBasicState Key) :
    SymmetricCryptorBasic.ready (SymmetricCryptorBasic.ready st).1 =
      ((SymmetricCryptorBasic.ready st).1, (SymmetricCryptorBasic.ready st).2) := by
  rcases ready_fst_promise_none st with h | h
  · rw [ready_of_promise_none _ h, ready_snd]
  · rw [h]
    have hp : st.keysToCryptoKeysPromise = none := by
      by_contra hne
      rcases ho : st.keysToCryptoKeysPromise with _ | settled
      · exact hne ho
      · have := congrArg SymmetricCryptorBasicState.keysToCryptoKeysPromise h
        unfold SymmetricCryptorBasic.ready at this
        rw [ho] at this
        rcases settled with e | result <;> simp at this
    rw [ready_of_promise_none _ hp]

/-- Evaluation of `ready` when the pending derivation has failed. -/
theorem ready_promise_error (st : SymmetricCryptorBasicState Key) (e : CryptorError)
    (h : st.keysToCryptoKeysPromise = some (.error e)) :
    SymmetricCryptorBasic.ready st =
      ({ st with keysToCryptoKeysFail := some e, keysToCryptoKeysPromise := none },
        some e) := by
  rcases st with ⟨single, reps, prom, stor, fail⟩
  subst h
  rfl

/-- Evaluation of `ready` when the pending derivation has succeeded. -/
theorem ready_promise_ok (st : SymmetricCryptorBasicState Key)
    (result : List (SymmetricCryptoService Key))
    (h : st.keysToCryptoKeysPromise = some (.ok result)) :
    SymmetricCryptorBasic.ready st =
      ({ st with
          cryptoKeysStorage := some (readyStorage st result)
          keysToCryptoKeysPromise := none },
        st.keysToCryptoKeysFail) := by
  rcases st with ⟨single, reps, prom, stor, fail⟩
  subst h
  rfl

theorem getCryptoKeys_fst (st : SymmetricCryptorBasicState Key) :
    (SymmetricCryptorBasic.getCryptoKeys st).1 = (SymmetricCryptorBasic.ready st).1 := by
  unfold SymmetricCryptorBasic.getCryptoKeys
  rcases hr : SymmetricCryptorBasic.ready st with ⟨st1, e?⟩
  rcases e? with _ | e
  · rcases hs : st1.cryptoKeysStorage with _ | ks
    · simp [hs]
    · by_cases hk : ks.length = 0 <;> simp [hs, hk]
  · simp

/-- Fetching the crypto keys is stable across calls: a second fetch on the
updated state returns the same state and the same outcome. -/
theorem getCryptoKeys_stable (st : SymmetricCryptorBasicState Key) :
    SymmetricCryptorBasic.getCryptoKeys (SymmetricCryptorBasic.getCryptoKeys st).1 =
      SymmetricCryptorBasic.getCryptoKeys st := by
  rw [getCryptoKeys_fst]
  unfold SymmetricCryptorBasic.getCryptoKeys
  rw [ready_ready]

theorem promiseAll_ok_length (l : List (Except CryptorError α)) (r : List α)
    (h : promiseAll l = .ok r) : r.length = l.length := by
  induction l generalizing r with
  | nil =>
    simp only [promiseAll] at h
    cases h
    rfl
  | cons x rest ih =>
    rcases x with e | a
    · simp [promiseAll] at h
    · simp only [promiseAll] at h
      rcases hr : promiseAll rest with e' | r'
      · rw [hr] at h
        simp [Except.map] at h
      · rw [hr] at h
        simp only [Except.map] at h
        cases h
        simp [ih r' hr]

theorem promiseAll_singleton_ok (x : Except CryptorError α) (r : List α)
    (h : promiseAll [x] = .ok r) : ∃ b, x = .ok b ∧ r = [b] := by
  rcases x with e | b
  · simp [promiseAll] at h
  · refine ⟨b, rfl, ?_⟩
    simp [promiseAll, Except.map] at h
    exact h.symm

/-- Shape of the constructor's state in single-key mode. -/
theorem construct_single (prov : CryptoProvider Key) (k : KeyArgument)
    (opts : SymmetricCryptorOptions) (st0 : SymmetricCryptorBasicState Key)
    (h : SymmetricCryptorBasic.construct prov (.single k) opts = .ok st0) :
    st0.keyIsSingle = true ∧ 1 ≤ st0.keyOnSingleRepeats ∧
      st0.keysToCryptoKeysPromise =
        some (promiseAll [SymmetricCryptoService.create prov k]) ∧
      st0.cryptoKeysStorage = none ∧ st0.keysToCryptoKeysFail = none := by
  simp only [SymmetricCryptorBasic.construct] at h
  split at h
  · cases h
    exact ⟨rfl, Nat.le_refl 1, rfl, rfl, rfl⟩
  · rename_i t ht
    split at h
    · rename_i hcond
      cases h
      refine ⟨rfl, ?_, rfl, rfl, rfl⟩
      have h1 : (0 : ℚ) < t := lt_of_lt_of_le zero_lt_one hcond.2
      have h2 : 0 < t.num := Rat.num_pos.mpr h1
      show 1 ≤ t.num.toNat
      omega
    · simp at h

/-- Shape of the constructor's state in list mode. -/
theorem construct_list (prov : CryptoProvider Key) (ks : List KeyArgument)
    (opts : SymmetricCryptorOptions) (st0 : SymmetricCryptorBasicState Key)
    (h : SymmetricCryptorBasic.construct prov (.list ks) opts = .ok st0) :
    st0.keyIsSingle = false ∧ ks ≠ [] ∧
      st0.keysToCryptoKeysPromise =
        some (promiseAll (ks.map (SymmetricCryptoService.create prov))) ∧
      st0.cryptoKeysStorage = none ∧ st0.keysToCryptoKeysFail = none := by
  simp only [SymmetricCryptorBasic.construct] at h
  split at h
  · simp at h
  · rename_i hlen
    cases h
    exact ⟨rfl, fun hnil => hlen (by simp [hnil]), rfl, rfl, rfl⟩

/-- After a constructor-produced state reports a successful readiness
step, its storage holds a non-empty stage list. -/
theorem construct_ready_ok (prov : CryptoProvider Key) (keys : KeysArgument)
    (opts : SymmetricCryptorOptions) (st0 : SymmetricCryptorBasicState Key)
    (hctor : SymmetricCryptorBasic.construct prov keys opts = .ok st0)
    (hready : (SymmetricCryptorBasic.ready st0).2 = none) :
    (SymmetricCryptorBasic.ready st0).1.cryptoKeysStorage = some (stagesOf st0) ∧
      stagesOf st0 ≠ [] := by
  rcases keys with k | ks
  · obtain ⟨hsingle, hreps, hprom, _, hfail⟩ := construct_single prov k opts st0 hctor
    rcases hall : promiseAll [SymmetricCryptoService.create prov k] with e | result
    · rw [ready_promise_error st0 e (hprom.trans (congrArg some hall))] at hready
      simp at hready
    · obtain ⟨svc, _, hres⟩ := promiseAll_singleton_ok _ _ hall
      subst hres
      have hr := ready_promise_ok st0 [svc] (hprom.trans (congrArg some hall))
      unfold stagesOf
      rw [hr]
      simp only [Option.getD_some]
      refine ⟨trivial, ?_⟩
      simp only [readyStorage, hsingle, if_true]
      intro hc
      have := congrArg List.length hc
      simp at this
      omega
  · obtain ⟨hsingle, hne, hprom, _, hfail⟩ := construct_list prov ks opts st0 hctor
    rcases hall : promiseAll (ks.map (SymmetricCryptoService.create prov)) with e | result
    · rw [ready_promise_error st0 e (hprom.trans (congrArg some hall))] at hready
      simp at hready
    · have hlen := promiseAll_ok_length _ _ hall
      have hr := ready_promise_ok st0 result (hprom.trans (congrArg some hall))
      unfold stagesOf
      rw [hr]
      simp only [Option.getD_some]
      refine ⟨trivial, ?_⟩
      simp only [readyStorage, hsingle, Bool.false_eq_true, if_false]
      intro hc
      rw [hc] at hlen
      simp only [List.length_nil, List.length_map] at hlen
      exact hne (List.length_eq_zero.mp hlen.symm)

/-- `getCryptoKeys` on an instance whose readiness step succeeded with a
non-empty storage returns that storage. -/
theorem getCryptoKeys_ok (st : SymmetricCryptorBasicState Key)
    (stages : List (SymmetricCryptoService Key))
    (hst : (SymmetricCryptorBasic.ready st).1.cryptoKeysStorage = some stages)
    (hne : stages ≠ [])
    (hready : (SymmetricCryptorBasic.ready st).2 = none) :
    SymmetricCryptorBasic.getCryptoKeys st =
      ((SymmetricCryptorBasic.ready st).1, .ok stages) := by
  unfold SymmetricCryptorBasic.getCryptoKeys
  rcases hr : SymmetricCryptorBasic.ready st with ⟨st1, e?⟩
  rw [hr] at hst hready
  simp only at hst hready
  subst hready
  have hlen : ¬ stages.length = 0 := fun hc => hne (List.length_eq_zero.mp hc)
  simp [hst, hlen]

/-- `getCryptoKeys` re-raises a readiness failure. -/
theorem getCryptoKeys_error (st : SymmetricCryptorBasicState Key) (e : CryptorError)
    (hready : (SymmetricCryptorBasic.ready st).2 = some e) :
    SymmetricCryptorBasic.getCryptoKeys st =
      ((SymmetricCryptorBasic.ready st).1, .error e) := by
  unfold SymmetricCryptorBasic.getCryptoKeys
  rcases hr : SymmetricCryptorBasic.ready st with ⟨st1, e?⟩
  rw [hr] at hready
  simp only at hready
  subst hready
  rfl

theorem encryptBytes_eval (prov : CryptoProvider Key)
    (st : SymmetricCryptorBasicState Key) (stages : List (SymmetricCryptoService Key))
    (tokens : List (List Nat)) (data : List Nat)
    (h : SymmetricCryptorBasic.getCryptoKeys st =
      ((SymmetricCryptorBasic.ready st).1, .ok stages)) :
    SymmetricCryptorBasic.encryptBytes prov st tokens data =
      ((SymmetricCryptorBasic.ready st).1,
        .ok (SymmetricCryptorBasic.encryptLoop prov stages tokens data)) := by
  unfold SymmetricCryptorBasic.encryptBytes
  rw [h]

theorem decryptBytes_eval (prov : CryptoProvider Key)
    (st : SymmetricCryptorBasicState Key) (stages : List (SymmetricCryptoService Key))
    (data : List Nat)
    (h : SymmetricCryptorBasic.getCryptoKeys st =
      ((SymmetricCryptorBasic.ready st).1, .ok stages)) :
    SymmetricCryptorBasic.decryptBytes prov st data =
      ((SymmetricCryptorBasic.ready st).1,
        if data.length = 0 then .ok data
        else .ok (SymmetricCryptorBasic.decryptLoop prov stages data)) := by
  unfold SymmetricCryptorBasic.decryptBytes
  rw [h]
  by_cases hd : data.length = 0 <;> simp [hd]

theorem decryptBytes_error (prov : CryptoProvider Key)
    (st : SymmetricCryptorBasicState Key) (e : CryptorError) (data : List Nat)
    (hready : (SymmetricCryptorBasic.ready st).2 = some e) :
    SymmetricCryptorBasic.decryptBytes prov st data =
      ((SymmetricCryptorBasic.ready st).1, .error e) := by
  unfold SymmetricCryptorBasic.decryptBytes
  rw [getCryptoKeys_error st e hready]

theorem encryptBytes_error (prov : CryptoProvider Key)
    (st : SymmetricCryptorBasicState Key) (e : CryptorError)
    (tokens : List (List Nat)) (data : List Nat)
    (hready : (SymmetricCryptorBasic.ready st).2 = some e) :
    SymmetricCryptorBasic.encryptBytes prov st tokens data =
      ((SymmetricCryptorBasic.ready st).1, .error e) := by
  unfold SymmetricCryptorBasic.encryptBytes
  rw [getCryptoKeys_error st e hready]

/-- The full instance-level story for a validly constructed, successfully
derived instance: `getCryptoKeys` yields exactly the non-empty stage list
`stagesOf st0`, on this state and on every state reached afterwards. -/
theorem construct_getCryptoKeys (prov : CryptoProvider Key) (keys : KeysArgument)
    (opts : SymmetricCryptorOptions) (st0 : SymmetricCryptorBasicState Key)
    (hctor : SymmetricCryptorBasic.construct prov keys opts = .ok st0)
    (hready : (SymmetricCryptorBasic.ready st0).2 = none) :
    SymmetricCryptorBasic.getCryptoKeys st0 =
      ((SymmetricCryptorBasic.ready st0).1, .ok (stagesOf st0)) ∧ stagesOf st0 ≠ [] := by
  obtain ⟨hst, hne⟩ := construct_ready_ok prov keys opts st0 hctor hready
  exact ⟨getCryptoKeys_ok st0 _ hst hne hready, hne⟩

theorem parseAlgorithm_eq_none_of_not_mem (a : String) (ha : a ∉ algorithms) :
    parseAlgorithm a = none := by
  unfold parseAlgorithm
  split
  · exact absurd (by decide) ha
  · exact absurd (by decide) ha
  · exact absurd (by decide) ha
  · rfl

end Lemmas

/-- C1: for every byte payload and every validly constructed cryptor whose
key derivation succeeds, decrypting the result of encrypting the payload
on the same instance returns exactly the payload — encrypt followed by
decrypt is the identity, assuming the cipher primitive is the inverse pair
it is trusted to be and the random collaborator supplies tokens of the
per-stage nonce length. -/
theorem encrypt_then_decrypt_roundtrip (prov : CryptoProvider Key)
    (hinv : ∀ p k m, prov.subtleDecrypt p k (prov.subtleEncrypt p k m) = m)
    (keys : KeysArgument) (opts : SymmetricCryptorOptions)
    (st0 : SymmetricCryptorBasicState Key)
    (hctor : SymmetricCryptorBasic.construct prov keys opts = .ok st0)
    (hready : (SymmetricCryptorBasic.ready st0).2 = none)
    (tokens : List (List Nat)) (p : List Nat)
    (htok : tokens.map List.length = tokenLengthsOf (stagesOf st0)) :
    ∃ c, (SymmetricCryptorBasic.encryptBytes prov st0 tokens p).2 = .ok c ∧
      (SymmetricCryptorBasic.decryptBytes prov
        (SymmetricCryptorBasic.encryptBytes prov st0 tokens p).1 c).2 = .ok p := by
  obtain ⟨hgck, hne⟩ := construct_getCryptoKeys prov keys opts st0 hctor hready
  refine ⟨SymmetricCryptorBasic.encryptLoop prov (stagesOf st0) tokens p, ?_, ?_⟩
  · rw [encryptBytes_eval prov st0 _ tokens p hgck]
  · rw [encryptBytes_eval prov st0 _ tokens p hgck]
    have hr1 : (SymmetricCryptorBasic.ready (SymmetricCryptorBasic.ready st0).1).1 =
        (SymmetricCryptorBasic.ready st0).1 := by
      rw [ready_ready]
    have hstable : SymmetricCryptorBasic.getCryptoKeys (SymmetricCryptorBasic.ready st0).1 =
        ((SymmetricCryptorBasic.ready (SymmetricCryptorBasic.ready st0).1).1,
          .ok (stagesOf st0)) := by
      rw [hr1, ← getCryptoKeys_fst st0, getCryptoKeys_stable st0, hgck]
    have hcne := encryptLoop_ne_nil prov (stagesOf st0) tokens p hne htok
    rw [decryptBytes_eval prov _ (stagesOf st0) _ hstable]
    simp only [hr1]
    rw [if_neg (fun hc => hcne (List.length_eq_zero.mp hc))]
    rw [decryptLoop_encryptLoop prov hinv _ tokens p htok]

/-- Witness for C1: a concrete single-key AES-CBC instance under the
identity cipher collaborator round-trips the payload `[5,6,7]`. -/
theorem encrypt_then_decrypt_roundtrip_witness :
    ∃ c, (SymmetricCryptorBasic.encryptBytes witProvider witState
        [List.replicate 16 0] [5, 6, 7]).2 = .ok c ∧
      (SymmetricCryptorBasic.decryptBytes witProvider
        (SymmetricCryptorBasic.encryptBytes witProvider witState
          [List.replicate 16 0] [5, 6, 7]).1 c).2 = .ok [5, 6, 7] :=
  encrypt_then_decrypt_roundtrip witProvider (fun _ _ _ => rfl)
    (.single (.rawKey [1, 2, 3])) ⟨none⟩ witState rfl rfl
    [List.replicate 16 0] [5, 6, 7] rfl

/-- C2: on a validly constructed, successfully derived cryptor, decrypt of
the empty byte input returns it unchanged, whereas encrypt of the empty
input takes no shortcut: it yields a non-empty blob carrying at least the
nonce length of every stage (given that the cipher primitive never
shrinks its input), and decrypting that blob yields the empty payload
again. -/
theorem empty_input_asymmetry (prov : CryptoProvider Key)
    (hinv : ∀ p k m, prov.subtleDecrypt p k (prov.subtleEncrypt p k m) = m)
    (hgrow : ∀ p k (m : List Nat), m.length ≤ (prov.subtleEncrypt p k m).length)
    (keys : KeysArgument) (opts : SymmetricCryptorOptions)
    (st0 : SymmetricCryptorBasicState Key)
    (hctor : SymmetricCryptorBasic.construct prov keys opts = .ok st0)
    (hready : (SymmetricCryptorBasic.ready st0).2 = none)
    (tokens : List (List Nat))
    (htok : tokens.map List.length = tokenLengthsOf (stagesOf st0)) :
    (SymmetricCryptorBasic.decryptBytes prov st0 []).2 = .ok [] ∧
    ∃ c, (SymmetricCryptorBasic.encryptBytes prov st0 tokens []).2 = .ok c ∧
      c ≠ [] ∧ (tokenLengthsOf (stagesOf st0)).sum ≤ c.length ∧
      (SymmetricCryptorBasic.decryptBytes prov
        (SymmetricCryptorBasic.encryptBytes prov st0 tokens []).1 c).2 = .ok [] := by
  obtain ⟨hgck, hne⟩ := construct_getCryptoKeys prov keys opts st0 hctor hready
  constructor
  · rw [decryptBytes_eval prov st0 _ [] hgck]
    simp
  · refine ⟨SymmetricCryptorBasic.encryptLoop prov (stagesOf st0) tokens [], ?_, ?_, ?_, ?_⟩
    · rw [encryptBytes_eval prov st0 _ tokens [] hgck]
    · exact encryptLoop_ne_nil prov (stagesOf st0) tokens [] hne htok
    · have := encryptLoop_length prov hgrow (stagesOf st0) tokens [] htok
      simpa using this
    · rw [encryptBytes_eval prov st0 _ tokens [] hgck]
      have hr1 : (SymmetricCryptorBasic.ready (SymmetricCryptorBasic.ready st0).1).1 =
          (SymmetricCryptorBasic.ready st0).1 := by
        rw [ready_ready]
      have hstable : SymmetricCryptorBasic.getCryptoKeys (SymmetricCryptorBasic.ready st0).1 =
          ((SymmetricCryptorBasic.ready (SymmetricCryptorBasic.ready st0).1).1,
            .ok (stagesOf st0)) := by
        rw [hr1, ← getCryptoKeys_fst st0, getCryptoKeys_stable st0, hgck]
      have hcne := encryptLoop_ne_nil prov (stagesOf st0) tokens [] hne htok
      rw [decryptBytes_eval prov _ (stagesOf st0) _ hstable]
      simp only [hr1]
      rw [if_neg (fun hc => hcne (List.length_eq_zero.mp hc))]
      rw [decryptLoop_encryptLoop prov hinv _ tokens [] htok]

/-- Witness for C2 at the concrete single-key AES-CBC instance. -/
theorem empty_input_asymmetry_witness :
    (SymmetricCryptorBasic.decryptBytes witProvider witState []).2 = .ok [] ∧
    ∃ c, (SymmetricCryptorBasic.encryptBytes witProvider witState
        [List.replicate 16 0] []).2 = .ok c ∧
      c ≠ [] ∧ (tokenLengthsOf (stagesOf witState)).sum ≤ c.length ∧
      (SymmetricCryptorBasic.decryptBytes witProvider
        (SymmetricCryptorBasic.encryptBytes witProvider witState
          [List.replicate 16 0] []).1 c).2 = .ok [] :=
  empty_input_asymmetry witProvider (fun _ _ _ => rfl) (fun _ _ _ => Nat.le_refl _)
    (.single (.rawKey [1, 2, 3])) ⟨none⟩ witState rfl rfl [List.replicate 16 0] rfl

/-- C3: the chain-level encryption loop applies the per-stage encrypt in
list order (stage 0 first, each output feeding the next stage; equivalently
the appended last stage is applied outermost), and the chain-level
decryption loop applies the per-stage decrypt in exactly the reverse order
(the appended last stage is undone first, stage 0 last). -/
theorem chain_stage_ordering (prov : CryptoProvider Key)
    (ss : List (SymmetricCryptoService Key)) (s : SymmetricCryptoService Key)
    (ts : List (List Nat)) (t : List Nat) (m d : List Nat)
    (hlen : ts.length = ss.length) :
    SymmetricCryptorBasic.encryptLoop prov (s :: ss) (t :: ts) m =
      SymmetricCryptorBasic.encryptLoop prov ss ts (s.encrypt prov t m) ∧
    SymmetricCryptorBasic.encryptLoop prov (ss ++ [s]) (ts ++ [t]) m =
      s.encrypt prov t (SymmetricCryptorBasic.encryptLoop prov ss ts m) ∧
    SymmetricCryptorBasic.decryptLoop prov (ss ++ [s]) d =
      SymmetricCryptorBasic.decryptLoop prov ss (s.decrypt prov d) ∧
    SymmetricCryptorBasic.decryptLoop prov (s :: ss) d =
      s.decrypt prov (SymmetricCryptorBasic.decryptLoop prov ss d) :=
  ⟨rfl, encryptLoop_snoc prov ss s ts t m hlen, decryptLoop_snoc prov ss s d,
    decryptLoop_cons prov s ss d⟩

/-- Witness for C3 on a concrete two-stage chain. -/
theorem chain_stage_ordering_witness :
    SymmetricCryptorBasic.encryptLoop witProvider
        [⟨.aesCBC, 0⟩, ⟨.aesGCM, 1⟩] [[2], [3]] [4] =
      SymmetricCryptorBasic.encryptLoop witProvider [⟨.aesGCM, 1⟩] [[3]]
        (SymmetricCryptoService.encrypt witProvider ⟨.aesCBC, 0⟩ [2] [4]) ∧
    SymmetricCryptorBasic.encryptLoop witProvider
        [⟨.aesGCM, 1⟩, ⟨.aesCBC, 0⟩] [[3], [2]] [4] =
      SymmetricCryptoService.encrypt witProvider ⟨.aesCBC, 0⟩ [2]
        (SymmetricCryptorBasic.encryptLoop witProvider [⟨.aesGCM, 1⟩] [[3]] [4]) ∧
    SymmetricCryptorBasic.decryptLoop witProvider [⟨.aesGCM, 1⟩, ⟨.aesCBC, 0⟩] [7] =
      SymmetricCryptorBasic.decryptLoop witProvider [⟨.aesGCM, 1⟩]
        (SymmetricCryptoService.decrypt witProvider ⟨.aesCBC, 0⟩ [7]) ∧
    SymmetricCryptorBasic.decryptLoop witProvider [⟨.aesCBC, 0⟩, ⟨.aesGCM, 1⟩] [7] =
      SymmetricCryptoService.decrypt witProvider ⟨.aesCBC, 0⟩
        (SymmetricCryptorBasic.decryptLoop witProvider [⟨.aesGCM, 1⟩] [7]) :=
  chain_stage_ordering witProvider [⟨.aesGCM, 1⟩] ⟨.aesCBC, 0⟩ [[3]] [2] [4] [7] rfl

/-- C4: each stage's encrypt returns the fresh random value (exactly
`tokenLength` bytes: 16 for AES-CBC/AES-CTR, 12 for AES-GCM) followed by
the cipher primitive's output, and each stage's decrypt splits its input
at exactly `tokenLength` bytes, using the prefix as the IV (CBC/GCM) or
as the initial counter block with bit length 64 (CTR) and the remainder
as the primitive's ciphertext input. -/
theorem stage_blob_layout (prov : CryptoProvider Key)
    (s : SymmetricCryptoService Key) (t d blob : List Nat)
    (ht : t.length = tokenLength s.algorithmName) :
    (tokenLength .aesCBC = 16 ∧ tokenLength .aesCTR = 16 ∧ tokenLength .aesGCM = 12) ∧
    s.encrypt prov t d =
      t ++ prov.subtleEncrypt (s.resolveEncryptParameters t) s.cryptoKey d ∧
    (s.encrypt prov t d).take (tokenLength s.algorithmName) = t ∧
    (s.encrypt prov t d).drop (tokenLength s.algorithmName) =
      prov.subtleEncrypt (s.resolveEncryptParameters t) s.cryptoKey d ∧
    s.decrypt prov blob =
      prov.subtleDecrypt (s.resolveDecryptParameters blob) s.cryptoKey
        (blob.drop (tokenLength s.algorithmName)) ∧
    (s.algorithmName = .aesCBC →
      s.resolveDecryptParameters blob = .aesIv .aesCBC (blob.take 16)) ∧
    (s.algorithmName = .aesGCM →
      s.resolveDecryptParameters blob = .aesIv .aesGCM (blob.take 12)) ∧
    (s.algorithmName = .aesCTR →
      s.resolveDecryptParameters blob = .aesCounter .aesCTR (blob.take 16) 64) := by
  refine ⟨⟨rfl, rfl, rfl⟩, rfl, ?_, ?_, rfl, ?_, ?_, ?_⟩
  · unfold SymmetricCryptoService.encrypt
    exact List.take_left' ht
  · unfold SymmetricCryptoService.encrypt
    exact List.drop_left' ht
  · intro ha
    unfold SymmetricCryptoService.resolveDecryptParameters
    rw [ha]
    rfl
  · intro ha
    unfold SymmetricCryptoService.resolveDecryptParameters
    rw [ha]
    rfl
  · intro ha
    unfold SymmetricCryptoService.resolveDecryptParameters
    rw [ha]
    rfl

/-- Witness for C4 on a concrete AES-GCM stage with a 12-byte token. -/
theorem stage_blob_layout_witness :
    (tokenLength .aesCBC = 16 ∧ tokenLength .aesCTR = 16 ∧ tokenLength .aesGCM = 12) ∧
    SymmetricCryptoService.encrypt witProvider ⟨.aesGCM, 0⟩ (List.replicate 12 9) [1, 2] =
      List.replicate 12 9 ++ witProvider.subtleEncrypt
        (SymmetricCryptoService.resolveEncryptParameters ⟨.aesGCM, 0⟩ (List.replicate 12 9))
        0 [1, 2] ∧
    (SymmetricCryptoService.encrypt witProvider ⟨.aesGCM, 0⟩
        (List.replicate 12 9) [1, 2]).take (tokenLength .aesGCM) = List.replicate 12 9 ∧
    (SymmetricCryptoService.encrypt witProvider ⟨.aesGCM, 0⟩
        (List.replicate 12 9) [1, 2]).drop (tokenLength .aesGCM) =
      witProvider.subtleEncrypt
        (SymmetricCryptoService.resolveEncryptParameters ⟨.aesGCM, 0⟩ (List.replicate 12 9))
        0 [1, 2] ∧
    SymmetricCryptoService.decrypt witProvider ⟨.aesGCM, 0⟩ [3, 4] =
      witProvider.subtleDecrypt
        (SymmetricCryptoService.resolveDecryptParameters ⟨.aesGCM, 0⟩ [3, 4]) 0
        (List.drop (tokenLength .aesGCM) [3, 4]) ∧
    ((⟨.aesGCM, 0⟩ : SymmetricCryptoService Nat).algorithmName = .aesCBC →
      SymmetricCryptoService.resolveDecryptParameters ⟨.aesGCM, 0⟩ [3, 4] =
        .aesIv .aesCBC (List.take 16 [3, 4])) ∧
    ((⟨.aesGCM, 0⟩ : SymmetricCryptoService Nat).algorithmName = .aesGCM →
      SymmetricCryptoService.resolveDecryptParameters ⟨.aesGCM, 0⟩ [3, 4] =
        .aesIv .aesGCM (List.take 12 [3, 4])) ∧
    ((⟨.aesGCM, 0⟩ : SymmetricCryptoService Nat).algorithmName = .aesCTR →
      SymmetricCryptoService.resolveDecryptParameters ⟨.aesGCM, 0⟩ [3, 4] =
        .aesCounter .aesCTR (List.take 16 [3, 4]) 64) :=
  stage_blob_layout witProvider ⟨.aesGCM, 0⟩ (List.replicate 12 9) [1, 2] [3, 4] rfl

/-- C5: on one cryptor instance the key-derivation work executes at most
once — the first readiness step consumes the memoized derivation promise
and later steps change nothing; a captured derivation failure is re-raised
identically on every subsequent ready/encrypt/decrypt call; a success
fixes the stage list forever (the single stage duplicated
`keyOnSingleRepeats` times in single-key mode, or one stage per list
entry in list mode). -/
theorem ready_memoizes_derivation (prov : CryptoProvider Key)
    (keys : KeysArgument) (opts : SymmetricCryptorOptions)
    (st0 : SymmetricCryptorBasicState Key)
    (hctor : SymmetricCryptorBasic.construct prov keys opts = .ok st0) :
    SymmetricCryptorBasic.ready (SymmetricCryptorBasic.ready st0).1 =
      ((SymmetricCryptorBasic.ready st0).1, (SymmetricCryptorBasic.ready st0).2) ∧
    (SymmetricCryptorBasic.ready st0).1.keysToCryptoKeysPromise = none ∧
    (∀ e, (SymmetricCryptorBasic.ready st0).2 = some e →
      (SymmetricCryptorBasic.ready (SymmetricCryptorBasic.ready st0).1).2 = some e ∧
      ∀ d tokens,
        (SymmetricCryptorBasic.decryptBytes prov
          (SymmetricCryptorBasic.ready st0).1 d).2 = .error e ∧
        (SymmetricCryptorBasic.encryptBytes prov
          (SymmetricCryptorBasic.ready st0).1 tokens d).2 = .error e) ∧
    ((SymmetricCryptorBasic.ready st0).2 = none →
      match keys with
      | .single k => ∃ svc, SymmetricCryptoService.create prov k = .ok svc ∧
          (SymmetricCryptorBasic.ready st0).1.cryptoKeysStorage =
            some (List.replicate st0.keyOnSingleRepeats svc)
      | .list ks => ∃ svcs,
          promiseAll (ks.map (SymmetricCryptoService.create prov)) = .ok svcs ∧
          (SymmetricCryptorBasic.ready st0).1.cryptoKeysStorage = some svcs) := by
  have hprom : ∃ pending, st0.keysToCryptoKeysPromise = some pending := by
    rcases keys with k | ks
    · obtain ⟨_, _, hp, _, _⟩ := construct_single prov k opts st0 hctor
      exact ⟨_, hp⟩
    · obtain ⟨_, hne, hp, _, _⟩ := construct_list prov ks opts st0 hctor
      exact ⟨_, hp⟩
  refine ⟨ready_ready st0, ?_, ?_, ?_⟩
  · obtain ⟨pending, hp⟩ := hprom
    rcases pending with e | result
    · rw [ready_promise_error st0 e hp]
    · rw [ready_promise_ok st0 result hp]
  · intro e he
    have hrr := ready_ready st0
    constructor
    · rw [hrr, he]
    · intro d tokens
      have hfail1 : (SymmetricCryptorBasic.ready
          (SymmetricCryptorBasic.ready st0).1).2 = some e := by
        rw [hrr, he]
      exact ⟨by rw [decryptBytes_error prov _ e d hfail1],
        by rw [encryptBytes_error prov _ e tokens d hfail1]⟩
  · intro hnone
    rcases keys with k | ks
    · obtain ⟨hsingle, _, hp, _, _⟩ := construct_single prov k opts st0 hctor
      rcases hall : promiseAll [SymmetricCryptoService.create prov k] with e | result
      · rw [ready_promise_error st0 e (hp.trans (congrArg some hall))] at hnone
        simp at hnone
      · obtain ⟨svc, hcreate, hres⟩ := promiseAll_singleton_ok _ _ hall
        subst hres
        refine ⟨svc, hcreate, ?_⟩
        rw [ready_promise_ok st0 [svc] (hp.trans (congrArg some hall))]
        simp [readyStorage, hsingle]
    · obtain ⟨hsingle, _, hp, _, _⟩ := construct_list prov ks opts st0 hctor
      rcases hall : promiseAll (ks.map (SymmetricCryptoService.create prov)) with e | result
      · rw [ready_promise_error st0 e (hp.trans (congrArg some hall))] at hnone
        simp at hnone
      · refine ⟨result, hall, ?_⟩
        rw [ready_promise_ok st0 result (hp.trans (congrArg some hall))]
        simp [readyStorage, hsingle]

/-- Witness for C5 on the concrete single-key AES-CBC instance. -/
theorem ready_memoizes_derivation_witness :
    SymmetricCryptorBasic.ready (SymmetricCryptorBasic.ready witState).1 =
      ((SymmetricCryptorBasic.ready witState).1,
        (SymmetricCryptorBasic.ready witState).2) ∧
    (SymmetricCryptorBasic.ready witState).1.keysToCryptoKeysPromise = none ∧
    (∀ e, (SymmetricCryptorBasic.ready witState).2 = some e →
      (SymmetricCryptorBasic.ready (SymmetricCryptorBasic.ready witState).1).2 = some e ∧
      ∀ d tokens,
        (SymmetricCryptorBasic.decryptBytes witProvider
          (SymmetricCryptorBasic.ready witState).1 d).2 = .error e ∧
        (SymmetricCryptorBasic.encryptBytes witProvider
          (SymmetricCryptorBasic.ready witState).1 tokens d).2 = .error e) ∧
    ((SymmetricCryptorBasic.ready witState).2 = none →
      match KeysArgument.single (.rawKey [1, 2, 3]) with
      | .single k => ∃ svc, SymmetricCryptoService.create witProvider k = .ok svc ∧
          (SymmetricCryptorBasic.ready witState).1.cryptoKeysStorage =
            some (List.replicate witState.keyOnSingleRepeats svc)
      | .list ks => ∃ svcs,
          promiseAll (ks.map (SymmetricCryptoService.create witProvider)) = .ok svcs ∧
          (SymmetricCryptorBasic.ready witState).1.cryptoKeysStorage = some svcs) :=
  ready_memoizes_derivation witProvider (.single (.rawKey [1, 2, 3])) ⟨none⟩ witState rfl

/-- C6 counterexample: constructing with the invalid algorithm tag
"AES-XTS" does not throw synchronously — the constructor returns an
instance whose deferred derivation outcome carries the InvalidAlgorithm
error, refuting that the failure is raised at construction time. -/
theorem invalid_algorithm_not_synchronous :
    SymmetricCryptorBasic.construct witProvider
      (.single (.keyInput (some "AES-XTS") [1])) ⟨none⟩ = .ok witFailState := rfl

/-- C6 (amended): an algorithm tag outside the case-sensitive three-member
enumeration makes the per-key derivation step fail with the
InvalidAlgorithm error naming the offending value and the accepted set;
the error is not thrown synchronously from the constructor but captured in
the deferred derivation outcome and raised by the readiness step (hence by
every ready/encrypt/decrypt call). -/
theorem invalid_algorithm_deferred (prov : CryptoProvider Key)
    (a : String) (key : List Nat) (ha : a ∉ algorithms) :
    SymmetricCryptoService.create prov (.keyInput (some a) key) =
      .error (.invalidAlgorithm a algorithms) ∧
    ∀ opts st0,
      SymmetricCryptorBasic.construct prov (.single (.keyInput (some a) key)) opts =
        .ok st0 →
      (SymmetricCryptorBasic.ready st0).2 = some (.invalidAlgorithm a algorithms) := by
  have hcreate : SymmetricCryptoService.create prov (.keyInput (some a) key) =
      .error (.invalidAlgorithm a algorithms) := by
    unfold SymmetricCryptoService.create
    simp only [parseAlgorithm_eq_none_of_not_mem a ha]
  refine ⟨hcreate, ?_⟩
  intro opts st0 hctor
  obtain ⟨_, _, hp, _, _⟩ := construct_single prov _ opts st0 hctor
  rw [hcreate] at hp
  rw [ready_promise_error st0 _ (hp.trans (by rfl))]

/-- Witness for the amended C6 at the concrete tag "AES-XTS". -/
theorem invalid_algorithm_deferred_witness :
    SymmetricCryptoService.create witProvider (.keyInput (some "AES-XTS") [1]) =
      .error (.invalidAlgorithm "AES-XTS" algorithms) ∧
    (SymmetricCryptorBasic.ready witFailState).2 =
      some (.invalidAlgorithm "AES-XTS" algorithms) :=
  ⟨(invalid_algorithm_deferred witProvider "AES-XTS" [1] (by decide)).1,
    (invalid_algorithm_deferred witProvider "AES-XTS" [1] (by decide)).2
      ⟨none⟩ witFailState rfl⟩

/-- C7 counterexample: constructing from a key list together with an
explicitly supplied `times` option is not rejected — the constructor
returns an instance, refuting that the option is rejected with an error in
list mode. -/
theorem times_with_list_not_rejected :
    SymmetricCryptorBasic.construct witProvider (.list [.rawKey [1]]) ⟨some 5⟩ =
      .ok {
        keyIsSingle := false
        keyOnSingleRepeats := 1
        keysToCryptoKeysPromise := some (.ok [⟨.aesCBC, 0⟩])
        cryptoKeysStorage := none
        keysToCryptoKeysFail := none
      } := rfl

/-- C7 (amended): in list mode an explicitly supplied `times` option is
not rejected at runtime; the list branch of the constructor never inspects
it, so construction behaves exactly as if `times` were absent (the option
is excluded only statically, by the list overload's type). -/
theorem times_with_list_ignored (prov : CryptoProvider Key)
    (ks : List KeyArgument) (t : ℚ) :
    SymmetricCryptorBasic.construct prov (.list ks) ⟨some t⟩ =
      SymmetricCryptorBasic.construct prov (.list ks) ⟨none⟩ := by
  simp only [SymmetricCryptorBasic.construct]

/-- C8: constructing with an empty key list fails synchronously with the
MissingKeys error (before any derivation is dispatched), and in single-key
mode an explicitly supplied `times` that is not a safe integer >= 1 is
rejected synchronously with the InvalidTimes error. -/
theorem sync_construction_errors (prov : CryptoProvider Key)
    (opts : SymmetricCryptorOptions) (k : KeyArgument) (t : ℚ)
    (ht : ¬(numberIsSafeInteger t = true ∧ 1 ≤ t)) :
    SymmetricCryptorBasic.construct prov (.list []) opts = .error .missingKeys ∧
    SymmetricCryptorBasic.construct prov (.single k) ⟨some t⟩ =
      .error (.invalidTimes t) := by
  constructor
  · rfl
  · simp only [SymmetricCryptorBasic.construct]
    rw [if_neg ht]

/-- Witness for C8 with the non-positive `times` value 0. -/
theorem sync_construction_errors_witness :
    SymmetricCryptorBasic.construct witProvider (.list []) ⟨none⟩ =
      .error .missingKeys ∧
    SymmetricCryptorBasic.construct witProvider (.single (.rawKey [1])) ⟨some 0⟩ =
      .error (.invalidTimes 0) :=
  sync_construction_errors witProvider ⟨none⟩ (.rawKey [1]) 0 (by decide)

/-- C9: for the file-oriented operations, the write to the file resource
begins only after the crypto step has fully succeeded — if the
encrypt/decrypt step fails, no write effect is performed, the file content
is left untouched, and the crypto error propagates. -/
theorem file_write_only_after_crypto (prov : CryptoProvider Key)
    (st : SymmetricCryptorBasicState Key) (file data : List Nat)
    (tokens : List (List Nat)) (e : CryptorError) :
    ((SymmetricCryptorBasic.decryptBytes prov st file).2 = .error e →
      (∀ c, FileEffect.fsWrite c ∉ (SymmetricCryptor.decryptFileInPlace prov st file).1) ∧
      runFileEffects file (SymmetricCryptor.decryptFileInPlace prov st file).1 = file ∧
      (SymmetricCryptor.decryptFileInPlace prov st file).2 = .error e) ∧
    ((SymmetricCryptorBasic.encryptBytes prov st tokens file).2 = .error e →
      (∀ c, FileEffect.fsWrite c ∉
        (SymmetricCryptor.encryptFileInPlace prov st tokens file).1) ∧
      runFileEffects file (SymmetricCryptor.encryptFileInPlace prov st tokens file).1 =
        file ∧
      (SymmetricCryptor.encryptFileInPlace prov st tokens file).2 = .error e) ∧
    ((SymmetricCryptorBasic.encryptBytes prov st tokens data).2 = .error e →
      (∀ c, FileEffect.fsWrite c ∉
        (SymmetricCryptor.writeEncryptedFile prov st tokens data).1) ∧
      runFileEffects file (SymmetricCryptor.writeEncryptedFile prov st tokens data).1 =
        file ∧
      (SymmetricCryptor.writeEncryptedFile prov st tokens data).2 = .error e) := by
  refine ⟨?_, ?_, ?_⟩
  · intro h
    unfold SymmetricCryptor.decryptFileInPlace
    simp only [h]
    refine ⟨fun c => ?_, ?_, ?_⟩ <;> simp [runFileEffects]
  · intro h
    unfold SymmetricCryptor.encryptFileInPlace
    simp only [h]
    refine ⟨fun c => ?_, ?_, ?_⟩ <;> simp [runFileEffects]
  · intro h
    unfold SymmetricCryptor.writeEncryptedFile
    simp only [h]
    refine ⟨fun c => ?_, ?_, ?_⟩ <;> simp [runFileEffects]

/-- Witness for C9: on the invalid-algorithm instance every crypto step
fails, and all three file operations emit no write effect and leave the
file as it was. -/
theorem file_write_only_after_crypto_witness :
    ((∀ c, FileEffect.fsWrite c ∉
        (SymmetricCryptor.decryptFileInPlace witProvider witFailState [9]).1) ∧
      runFileEffects [9]
        (SymmetricCryptor.decryptFileInPlace witProvider witFailState [9]).1 = [9] ∧
      (SymmetricCryptor.decryptFileInPlace witProvider witFailState [9]).2 =
        .error (.invalidAlgorithm "AES-XTS" algorithms)) ∧
    ((∀ c, FileEffect.fsWrite c ∉
        (SymmetricCryptor.encryptFileInPlace witProvider witFailState [[1]] [9]).1) ∧
      runFileEffects [9]
        (SymmetricCryptor.encryptFileInPlace witProvider witFailState [[1]] [9]).1 =
          [9] ∧
      (SymmetricCryptor.encryptFileInPlace witProvider witFailState [[1]] [9]).2 =
        .error (.invalidAlgorithm "AES-XTS" algorithms)) ∧
    ((∀ c, FileEffect.fsWrite c ∉
        (SymmetricCryptor.writeEncryptedFile witProvider witFailState [[1]] [8]).1) ∧
      runFileEffects [9]
        (SymmetricCryptor.writeEncryptedFile witProvider witFailState [[1]] [8]).1 =
          [9] ∧
      (SymmetricCryptor.writeEncryptedFile witProvider witFailState [[1]] [8]).2 =
        .error (.invalidAlgorithm "AES-XTS" algorithms)) :=
  ⟨(file_write_only_after_crypto witProvider witFailState [9] [8] [[1]]
      (.invalidAlgorithm "AES-XTS" algorithms)).1 rfl,
    (file_write_only_after_crypto witProvider witFailState [9] [8] [[1]]
      (.invalidAlgorithm "AES-XTS" algorithms)).2.1 rfl,
    (file_write_only_after_crypto witProvider witFailState [9] [8] [[1]]
      (.invalidAlgorithm "AES-XTS" algorithms)).2.2 rfl⟩

/-- C10: decrypt performs the readiness step before its empty-input fast
path, so on an instance whose key derivation failed, decrypting the empty
byte sequence raises the cached derivation error instead of returning the
empty input. -/
theorem decrypt_empty_still_raises_cached_error (prov : CryptoProvider Key)
    (st : SymmetricCryptorBasicState Key) (e : CryptorError)
    (hfail : (SymmetricCryptorBasic.ready st).2 = some e) :
    (SymmetricCryptorBasic.decryptBytes prov st []).2 = .error e := by
  rw [decryptBytes_error prov st e [] hfail]

/-- Witness for C10: on the invalid-algorithm instance, decrypting the
empty byte sequence raises the cached InvalidAlgorithm error. -/
theorem decrypt_empty_still_raises_cached_error_witness :
    (SymmetricCryptorBasic.decryptBytes witProvider witFailState []).2 =
      .error (.invalidAlgorithm "AES-XTS" algorithms) :=
  decrypt_empty_still_raises_cached_error witProvider witFailState
    (.invalidAlgorithm "AES-XTS" algorithms) rfl

end SymmetricCrypto
